import Mathlib

/-!
Shallow embedding of the NCM container decoder from `src/src-tauri/src/main.rs`
(mirrorange/ncmdump-gui).  Byte streams are `List Nat` with every element a
byte value; machine arithmetic that wraps (`& 0xFF`) is rendered as `% 256`.
Fallible stages return `Except NcmError`; a Rust index/slice panic is rendered
as the distinguished error `NcmError.panic` so that panics stay observable and
distinct from the tagged format errors.

The AES-128 block primitive and the base64 decoder come from external crates
(`aes`, `block-modes`, `base64`), not from this repository's sources; the
functions that use them are parameterised by those primitives
(`coreDec`, `metaDec` for the per-block AES decryptions under the two fixed
hex keys `CORE_KEY` and `META_KEY`, and `b64` for base64 decoding), while the
ECB chaining and PKCS7 unpadding structure around the block primitive is
modelled explicitly.
-/

/-- Error outcomes of the decoder stages, following the spec's taxonomy in §7
plus `panic` for a Rust out-of-bounds slice or index abort. -/
inductive NcmError where
  | badMagic
  | truncated
  | invalidLength
  | invalidPadding
  | invalidMetadata
  | base64Error
  | panic
deriving DecidableEq, Repr

/-- The 8-byte ASCII magic `CTENFDAM` checked by `open_ncm_file`. -/
def MAGIC : List Nat := [67, 84, 69, 78, 70, 68, 65, 77]

/-- `f.read_u32::<LittleEndian>()`: consume exactly 4 bytes, little endian;
fewer than 4 remaining bytes is an end-of-file error. -/
def read_u32_le (s : List Nat) : Option (Nat × List Nat) :=
  match s with
  | b0 :: b1 :: b2 :: b3 :: rest =>
      some (b0 + b1 * 256 + b2 * 65536 + b3 * 16777216, rest)
  | _ => none

/-- `open_ncm_file`: read exactly 8 header bytes (short stream is an io
error, modelled `truncated`), compare with the magic, return the rest of the
stream on success. -/
def open_ncm_file (s : List Nat) : Except NcmError (List Nat) :=
  if s.length < 8 then .error .truncated
  else if s.take 8 = MAGIC then .ok (s.drop 8)
  else .error .badMagic

/-- PKCS7 unpadding of the concatenated decrypted blocks: the last byte `n`
must satisfy `1 ≤ n ≤ 16`, fit inside the data, and the last `n` bytes must
all equal `n`; those `n` bytes are removed.  Modelled from the spec: the
`block-modes`/`block-padding` crate that implements this is an external
dependency, not part of `src/`; §4.2 of the spec specifies failure when "the
padding bytes at the end of the final block do not form a valid PKCS7
pattern". -/
def pkcs7_unpad (pt : List Nat) : Except NcmError (List Nat) :=
  match pt.getLast? with
  | none => .error .invalidPadding
  | some n =>
      if 1 ≤ n ∧ n ≤ 16 ∧ n ≤ pt.length ∧
          ∀ b ∈ pt.drop (pt.length - n), b = n then
        .ok (pt.take (pt.length - n))
      else .error .invalidPadding

/-- Executable form of the PKCS7 validity test on a decrypted buffer. -/
def pkcs7_valid (pt : List Nat) : Bool :=
  match pt.getLast? with
  | none => false
  | some n =>
      decide (1 ≤ n ∧ n ≤ 16 ∧ n ≤ pt.length ∧
        ∀ b ∈ pt.drop (pt.length - n), b = n)

/-- Apply the block decryption `dec` to each consecutive 16-byte block
(electronic codebook mode).  The final catch-all arm (fewer than 16 bytes
remaining) is unreachable from `ecb_decrypt`, which only calls this on
ciphertexts whose length is a multiple of 16. -/
def decryptBlocks (dec : List Nat → List Nat) : List Nat → List Nat
  | [] => []
  | b1 :: b2 :: b3 :: b4 :: b5 :: b6 :: b7 :: b8 ::
      b9 :: b10 :: b11 :: b12 :: b13 :: b14 :: b15 :: b16 :: rest =>
      dec [b1, b2, b3, b4, b5, b6, b7, b8,
           b9, b10, b11, b12, b13, b14, b15, b16] ++ decryptBlocks dec rest
  | ct => dec ct

/-- `Ecb::<Aes128, Pkcs7>::decrypt_vec`: reject ciphertext whose length is not
a multiple of the 16-byte block size, decrypt each block with `dec`, then
remove PKCS7 padding.  Modelled from the spec: the `block-modes` crate is an
external dependency; §4.2 gives this contract with errors
`CryptoError::InvalidLength` and `CryptoError::InvalidPadding`. -/
def ecb_decrypt (dec : List Nat → List Nat) (ct : List Nat) :
    Except NcmError (List Nat) :=
  if ct.length % 16 ≠ 0 then .error .invalidLength
  else pkcs7_unpad (decryptBlocks dec ct)

/-- `decrypt_key_data`: read `key_length` bytes (short read is `truncated`),
XOR each byte with `0x64`, AES-ECB-decrypt with PKCS7 unpadding under the
`CORE_KEY` block primitive `coreDec`, then take `decrypted_data[17..]`, which
panics when the plaintext is shorter than 17 bytes.  Returns the master key
bytes and the rest of the stream. -/
def decrypt_key_data (coreDec : List Nat → List Nat) (s : List Nat)
    (key_length : Nat) : Except NcmError (List Nat × List Nat) :=
  if s.length < key_length then .error .truncated
  else
    let key_data := (s.take key_length).map (fun b => b ^^^ 0x64)
    match ecb_decrypt coreDec key_data with
    | .error e => .error e
    | .ok dec =>
        if dec.length < 17 then .error .panic
        else .ok (dec.drop 17, s.drop key_length)

/-- One iteration of the key-box scramble loop in `generate_key_box`.
`key_data[key_offset]` is a Rust panicking index, so the state is `none`
once an out-of-bounds access has happened. -/
def keyBoxStep (key_data : List Nat) (st : Option (List Nat × Nat × Nat))
    (i : Nat) : Option (List Nat × Nat × Nat) :=
  match st with
  | none => none
  | some (box, last_byte, key_offset) =>
      match key_data[key_offset]? with
      | none => none
      | some kb =>
          let swap := box.getD i 0
          let c := (swap + last_byte + kb) % 256
          let key_offset2 :=
            if key_data.length ≤ key_offset + 1 then 0 else key_offset + 1
          some ((box.set i (box.getD c 0)).set c swap, c, key_offset2)

/-- `generate_key_box`: start from the identity table `[0, …, 255]` and run
256 scramble iterations; `none` models the Rust index panic on an empty
master key. -/
def generate_key_box (key_data : List Nat) : Option (List Nat) :=
  ((List.range 256).foldl (keyBoxStep key_data)
      (some (List.range 256, 0, 0))).map (fun st => st.1)

/-- Invariant carried through the key-box scramble: the state is live, the
table is a permutation of `0..=255`, and the key offset is in bounds. -/
def KBInv (key_data : List Nat) (st : Option (List Nat × Nat × Nat)) : Prop :=
  ∃ box last_byte key_offset, st = some (box, last_byte, key_offset) ∧
    box.Perm (List.range 256) ∧ key_offset < key_data.length

/-- `decrypt_key`: skip 2 reserved bytes, read the u32 key length, run
`decrypt_key_data`, then build the key box. -/
def decrypt_key (coreDec : List Nat → List Nat) (s : List Nat) :
    Except NcmError (List Nat × List Nat) :=
  match read_u32_le (s.drop 2) with
  | none => .error .truncated
  | some (key_length, s1) =>
      match decrypt_key_data coreDec s1 key_length with
      | .error e => .error e
      | .ok (key_data, s2) =>
          match generate_key_box key_data with
          | none => .error .panic
          | some box => .ok (box, s2)

/-- `decrypt_meta_data` up to the decrypted JSON bytes: read the u32 metadata
length, read that many bytes (short read is `truncated`), XOR each byte with
`0x63`, slice `meta_data[22..]` (panics when fewer than 22 bytes), base64
decode with the external primitive `b64`, AES-ECB-decrypt with PKCS7
unpadding under the `META_KEY` block primitive `metaDec`, then slice
`decrypted_data[6..]` (panics when fewer than 6 bytes).  Returns the JSON
text bytes and the rest of the stream; UTF-8 validation and JSON parsing of
those bytes happen in the caller-facing wrapper `decode`. -/
def decrypt_meta_data (metaDec : List Nat → List Nat)
    (b64 : List Nat → Option (List Nat)) (s : List Nat) :
    Except NcmError (List Nat × List Nat) :=
  match read_u32_le s with
  | none => .error .truncated
  | some (meta_length, s1) =>
      if s1.length < meta_length then .error .truncated
      else
        let meta_data := (s1.take meta_length).map (fun b => b ^^^ 0x63)
        if meta_data.length < 22 then .error .panic
        else
          match b64 (meta_data.drop 22) with
          | none => .error .base64Error
          | some decoded =>
              match ecb_decrypt metaDec decoded with
              | .error e => .error e
              | .ok dec =>
                  if dec.length < 6 then .error .panic
                  else .ok (dec.drop 6, s1.drop meta_length)

/-- `decrypt_image_data`: read and discard the u32 CRC, skip 5 reserved
bytes, read the u32 image size, read exactly that many bytes.  Returns the
image bytes and the rest of the stream. -/
def decrypt_image_data (s : List Nat) : Except NcmError (List Nat × List Nat) :=
  match read_u32_le s with
  | none => .error .truncated
  | some (_crc32, s1) =>
      match read_u32_le (s1.drop 5) with
      | none => .error .truncated
      | some (image_size, s2) =>
          if s2.length < image_size then .error .truncated
          else .ok (s2.take image_size, s2.drop image_size)

/-- The keystream byte the audio loop XORs into the byte at loop index `i`:
`j = (i + 1) & 0xFF`, then
`key_box[(key_box[j] + key_box[(key_box[j] + j) & 0xFF]) & 0xFF]`. -/
def ksByte (box : List Nat) (i : Nat) : Nat :=
  let j := (i + 1) % 256
  box.getD ((box.getD j 0 + box.getD ((box.getD j 0 + j) % 256) 0) % 256) 0

/-- The audio decryption loop over one chunk, generalised to start at loop
index `pos`: byte `b` at index `pos + k` becomes `b ^^^ ksByte box (pos + k)`.
The source's per-chunk loop is `decryptFrom box 0`. -/
def decryptFrom (box : List Nat) (pos : Nat) : List Nat → List Nat
  | [] => []
  | b :: rest => (b ^^^ ksByte box pos) :: decryptFrom box (pos + 1) rest

/-- `decrypt_file_data`: consume the audio payload in reads of up to
`0x8000 = 32768` bytes and run the decryption loop on each chunk with the
loop index restarting at 0, concatenating the results. -/
def decrypt_file_data (box : List Nat) (data : List Nat) : List Nat :=
  if h : data = [] then []
  else decryptFrom box 0 (data.take 32768) ++
    decrypt_file_data box (data.drop 32768)
termination_by data.length
decreasing_by
  simp only [List.length_drop]
  have : 0 < data.length := List.length_pos.mpr h
  omega

/-- Decrypting an audio payload delivered as an explicit list of chunks, each
chunk processed by the source's per-chunk loop (loop index restarting at 0 on
every chunk). -/
def decryptChunks (box : List Nat) (chunks : List (List Nat)) : List Nat :=
  (chunks.map (fun c => decryptFrom box 0 c)).flatten

/-- The whole decode pipeline of `dump` (its file writing stripped): open and
check the header, recover the key box, decrypt the metadata and parse it with
`parseMeta` (standing for UTF-8 validation plus `serde_json` parsing, which
fail as `invalidMetadata`), extract the image, then stream-decrypt the
remaining bytes as audio. -/
def decode {M : Type} (parseMeta : List Nat → Option M)
    (coreDec metaDec : List Nat → List Nat)
    (b64 : List Nat → Option (List Nat)) (s : List Nat) :
    Except NcmError (M × List Nat × List Nat) :=
  match open_ncm_file s with
  | .error e => .error e
  | .ok s1 =>
      match decrypt_key coreDec s1 with
      | .error e => .error e
      | .ok (box, s2) =>
          match decrypt_meta_data metaDec b64 s2 with
          | .error e => .error e
          | .ok (metaBytes, s3) =>
              match parseMeta metaBytes with
              | none => .error .invalidMetadata
              | some m =>
                  match decrypt_image_data s3 with
                  | .error e => .error e
                  | .ok (image_data, s4) =>
                      .ok (m, image_data, decrypt_file_data box s4)

/-- A concrete container whose metadata section length prefix is 0: magic,
2 reserved bytes, key section of declared length 32 (32 zero bytes), then a
metadata length prefix of 0. -/
def zeroMetaContainer : List Nat :=
  MAGIC ++ [0, 0] ++ [32, 0, 0, 0] ++ List.replicate 32 0 ++ [0, 0, 0, 0]

/-! ### Helper lemmas -/

theorem foldl_inv {α β : Type} (f : β → α → β) (P : β → Prop) :
    ∀ (l : List α) (init : β), P init →
      (∀ st a, a ∈ l → P st → P (f st a)) → P (l.foldl f init) := by
  intro l
  induction l with
  | nil => intro init h _; simpa using h
  | cons a t ih =>
      intro init h hstep
      simp only [List.foldl_cons]
      exact ih (f init a) (hstep init a (by simp) h)
        (fun st b hb hP => hstep st b (by simp [hb]) hP)

theorem count_set_aux :
    ∀ (l : List Nat) (i : Nat) (a x : Nat), i < l.length →
      (l.set i a).count x + (if l.getD i 0 = x then 1 else 0)
        = l.count x + (if a = x then 1 else 0) := by
  intro l
  induction l with
  | nil => intro i a x h; simp at h
  | cons b t ih =>
      intro i a x h
      cases i with
      | zero =>
          simp only [List.set_cons_zero, List.count_cons, List.getD_cons_zero,
            beq_iff_eq]
          by_cases hax : a = x <;> by_cases hbx : b = x <;> simp [hax, hbx]
      | succ n =>
          have hn : n < t.length := by simpa using h
          have hrec := ih n a x hn
          simp only [List.set_cons_succ, List.count_cons, List.getD_cons_succ,
            beq_iff_eq]
          simp only [List.getD_eq_getElem?_getD] at hrec
          by_cases hbx : b = x <;> simp [hbx] <;> omega

theorem set_set_swap_count (l : List Nat) (i j x : Nat)
    (hi : i < l.length) (hj : j < l.length) :
    ((l.set i (l.getD j 0)).set j (l.getD i 0)).count x = l.count x := by
  by_cases hij : i = j
  · subst hij
    rw [List.set_set]
    have h := count_set_aux l i (l.getD i 0) x hi
    omega
  · have hj1 : j < (l.set i (l.getD j 0)).length := by
      simpa [List.length_set] using hj
    have hgd : (l.set i (l.getD j 0)).getD j 0 = l.getD j 0 := by
      simp [List.getD_eq_getElem?_getD, List.getElem?_set_ne hij]
    have h2 := count_set_aux (l.set i (l.getD j 0)) j (l.getD i 0) x hj1
    have h1 := count_set_aux l i (l.getD j 0) x hi
    rw [hgd] at h2
    by_cases e1 : l.getD j 0 = x <;> by_cases e2 : l.getD i 0 = x <;>
      simp [e1, e2] at h1 h2 ⊢ <;> omega

theorem set_set_swap_perm (l : List Nat) (i j : Nat)
    (hi : i < l.length) (hj : j < l.length) :
    ((l.set i (l.getD j 0)).set j (l.getD i 0)).Perm l :=
  List.perm_iff_count.mpr (fun x => set_set_swap_count l i j x hi hj)

theorem keyBoxStep_inv (key_data : List Nat) (st : Option (List Nat × Nat × Nat))
    (i : Nat) (hi : i ∈ List.range 256) (h : KBInv key_data st) :
    KBInv key_data (keyBoxStep key_data st i) := by
  obtain ⟨box, last_byte, key_offset, hst, hperm, hoff⟩ := h
  subst hst
  have hkb : key_data[key_offset]? = some key_data[key_offset] :=
    List.getElem?_eq_getElem hoff
  have hlen : box.length = 256 := by
    have := hperm.length_eq; simpa using this
  have hi256 : i < box.length := by rw [hlen]; exact List.mem_range.mp hi
  have hc : (box.getD i 0 + last_byte + key_data[key_offset]) % 256 < box.length := by
    rw [hlen]; exact Nat.mod_lt _ (by norm_num)
  refine ⟨(box.set i
        (box.getD ((box.getD i 0 + last_byte + key_data[key_offset]) % 256) 0)).set
        ((box.getD i 0 + last_byte + key_data[key_offset]) % 256) (box.getD i 0),
    (box.getD i 0 + last_byte + key_data[key_offset]) % 256,
    (if key_data.length ≤ key_offset + 1 then 0 else key_offset + 1),
    ?_, ?_, ?_⟩
  · simp only [keyBoxStep, hkb]
  · exact (set_set_swap_perm box i _ hi256 hc).trans hperm
  · by_cases hwrap : key_data.length ≤ key_offset + 1
    · simp only [if_pos hwrap]; omega
    · simp only [if_neg hwrap]; omega

theorem generate_key_box_perm (key_data : List Nat) (h : key_data ≠ []) :
    ∃ box, generate_key_box key_data = some box ∧ box.Perm (List.range 256) := by
  have h0 : KBInv key_data (some (List.range 256, 0, 0)) :=
    ⟨List.range 256, 0, 0, rfl, List.Perm.refl _, List.length_pos.mpr h⟩
  have hfin := foldl_inv (keyBoxStep key_data) (KBInv key_data) (List.range 256)
    (some (List.range 256, 0, 0)) h0 (fun st a ha hP => keyBoxStep_inv key_data st a ha hP)
  obtain ⟨box, last_byte, key_offset, heq, hperm, _⟩ := hfin
  refine ⟨box, ?_, hperm⟩
  unfold generate_key_box
  rw [heq]
  rfl

theorem ksByte_congr (box : List Nat) (p q : Nat) (h : p % 256 = q % 256) :
    ksByte box p = ksByte box q := by
  have h1 : (p + 1) % 256 = (q + 1) % 256 := by omega
  simp only [ksByte]
  rw [h1]

theorem decryptFrom_shift (box : List Nat) :
    ∀ (xs : List Nat) (p q : Nat), p % 256 = q % 256 →
      decryptFrom box p xs = decryptFrom box q xs := by
  intro xs
  induction xs with
  | nil => intro p q _; rfl
  | cons b rest ih =>
      intro p q h
      have h1 : (p + 1) % 256 = (q + 1) % 256 := by omega
      simp only [decryptFrom, ksByte_congr box p q h, ih (p + 1) (q + 1) h1]

theorem decryptFrom_append (box : List Nat) :
    ∀ (xs ys : List Nat) (p : Nat),
      decryptFrom box p (xs ++ ys)
        = decryptFrom box p xs ++ decryptFrom box (p + xs.length) ys := by
  intro xs
  induction xs with
  | nil => intro ys p; simp [decryptFrom]
  | cons b rest ih =>
      intro ys p
      simp only [List.cons_append, decryptFrom, List.append_eq, ih,
        List.length_cons]
      rw [show p + (rest.length + 1) = p + 1 + rest.length by omega]

theorem decryptFrom_length (box : List Nat) :
    ∀ (xs : List Nat) (p : Nat), (decryptFrom box p xs).length = xs.length := by
  intro xs
  induction xs with
  | nil => intro p; rfl
  | cons b rest ih => intro p; simp [decryptFrom, ih]

theorem decryptFrom_getD (box : List Nat) :
    ∀ (xs : List Nat) (p i : Nat), i < xs.length →
      (decryptFrom box p xs).getD i 0 = xs.getD i 0 ^^^ ksByte box (p + i) := by
  intro xs
  induction xs with
  | nil => intro p i h; simp at h
  | cons b rest ih =>
      intro p i h
      cases i with
      | zero => simp [decryptFrom]
      | succ n =>
          have hn : n < rest.length := by simpa using h
          simp only [decryptFrom, List.getD_cons_succ, ih (p + 1) n hn]
          rw [show p + 1 + n = p + (n + 1) by omega]

theorem decryptFrom_involution (box : List Nat) :
    ∀ (xs : List Nat) (p : Nat),
      decryptFrom box p (decryptFrom box p xs) = xs := by
  intro xs
  induction xs with
  | nil => intro p; rfl
  | cons b rest ih =>
      intro p
      simp only [decryptFrom, ih (p + 1)]
      rw [Nat.xor_assoc, Nat.xor_self, Nat.xor_zero]

theorem decrypt_file_data_eq_aux (box : List Nat) :
    ∀ (n : Nat) (data : List Nat), data.length ≤ n →
      decrypt_file_data box data = decryptFrom box 0 data := by
  intro n
  induction n with
  | zero =>
      intro data h
      have : data = [] := List.eq_nil_of_length_eq_zero (Nat.le_zero.mp h)
      subst this
      simp [decrypt_file_data, decryptFrom]
  | succ n ih =>
      intro data h
      by_cases hd : data = []
      · subst hd; simp [decrypt_file_data, decryptFrom]
      · have hnil : decrypt_file_data box [] = ([] : List Nat) := by
          simp [decrypt_file_data]
        rw [decrypt_file_data, dif_neg hd]
        by_cases hlen : data.length ≤ 32768
        · rw [List.take_of_length_le hlen, List.drop_eq_nil_of_le hlen,
            hnil, List.append_nil]
        · conv_rhs => rw [← List.take_append_drop 32768 data]
          rw [decryptFrom_append]
          congr 1
          have hdrop : (data.drop 32768).length ≤ n := by
            simp only [List.length_drop]; omega
          rw [ih (data.drop 32768) hdrop]
          apply decryptFrom_shift
          have htake : (data.take 32768).length = 32768 := by
            simp [List.length_take]; omega
          rw [htake]

theorem decrypt_file_data_eq (box : List Nat) (data : List Nat) :
    decrypt_file_data box data = decryptFrom box 0 data :=
  decrypt_file_data_eq_aux box data.length data (le_refl _)

theorem pkcs7_valid_iff (pt : List Nat) :
    pkcs7_valid pt = true ↔
      ∃ n, 1 ≤ n ∧ n ≤ 16 ∧ n ≤ pt.length ∧
        pt.drop (pt.length - n) = List.replicate n n := by
  constructor
  · intro h
    unfold pkcs7_valid at h
    cases hLast : pt.getLast? with
    | none => rw [hLast] at h; simp at h
    | some m =>
        rw [hLast] at h
        obtain ⟨h1, h16, hlen, hall⟩ := of_decide_eq_true h
        refine ⟨m, h1, h16, hlen, ?_⟩
        rw [List.eq_replicate_iff]
        exact ⟨by rw [List.length_drop]; omega, hall⟩
  · rintro ⟨n, h1, h16, hlen, hdrop⟩
    have hlast : pt.getLast? = some n := by
      rw [List.getLast?_eq_getElem?]
      rw [show pt.length - 1 = (pt.length - n) + (n - 1) by omega]
      rw [← List.getElem?_drop, hdrop, List.getElem?_replicate,
        if_pos (by omega : n - 1 < n)]
    unfold pkcs7_valid
    rw [hlast]
    apply decide_eq_true
    refine ⟨h1, h16, hlen, ?_⟩
    rw [hdrop]
    intro b hb
    exact List.eq_of_mem_replicate hb

theorem pkcs7_unpad_cases (pt : List Nat) :
    (pkcs7_valid pt = true →
        ∃ n, 1 ≤ n ∧ n ≤ 16 ∧
          pkcs7_unpad pt = .ok (pt.take (pt.length - n)) ∧
          pt.drop (pt.length - n) = List.replicate n n) ∧
      (pkcs7_valid pt = false →
        pkcs7_unpad pt = .error .invalidPadding) := by
  cases hLast : pt.getLast? with
  | none =>
      refine ⟨?_, ?_⟩
      · intro h; unfold pkcs7_valid at h; rw [hLast] at h; simp at h
      · intro _; unfold pkcs7_unpad; rw [hLast]
  | some m =>
      have hval : pkcs7_valid pt =
          decide (1 ≤ m ∧ m ≤ 16 ∧ m ≤ pt.length ∧
            ∀ b ∈ pt.drop (pt.length - m), b = m) := by
        unfold pkcs7_valid; rw [hLast]
      have hunp : pkcs7_unpad pt =
          if 1 ≤ m ∧ m ≤ 16 ∧ m ≤ pt.length ∧
              ∀ b ∈ pt.drop (pt.length - m), b = m then
            .ok (pt.take (pt.length - m))
          else .error .invalidPadding := by
        unfold pkcs7_unpad; rw [hLast]
      by_cases hcond : 1 ≤ m ∧ m ≤ 16 ∧ m ≤ pt.length ∧
          ∀ b ∈ pt.drop (pt.length - m), b = m
      · obtain ⟨h1, h16, hlen, hall⟩ := hcond
        refine ⟨?_, ?_⟩
        · intro _
          refine ⟨m, h1, h16, ?_, ?_⟩
          · rw [hunp, if_pos ⟨h1, h16, hlen, hall⟩]
          · rw [List.eq_replicate_iff]
            exact ⟨by rw [List.length_drop]; omega, hall⟩
        · intro h
          rw [hval, decide_eq_true ⟨h1, h16, hlen, hall⟩] at h
          exact absurd h (by simp)
      · refine ⟨?_, ?_⟩
        · intro h
          rw [hval] at h
          exact absurd (of_decide_eq_true h) hcond
        · intro _
          rw [hunp, if_neg hcond]

/-! ### Claim theorems -/

/-- C1: for every key box and every audio stream, the decoded output byte at
absolute 0-based offset `i` equals the input byte XOR
`table[(table[j] + table[(table[j] + j) mod 256]) mod 256]` with
`j = (i + 1) mod 256`, evaluated per absolute byte index: although the
source restarts its loop index at each 0x8000-byte chunk, 0x8000 is a
multiple of 256, so the produced keystream agrees with the absolute-index
formula for streams of any length, with exact (non-truncating) index
arithmetic. -/
theorem claim_C1_keystream_per_absolute_offset (box data : List Nat) (i : Nat)
    (h : i < data.length) :
    (decrypt_file_data box data).getD i 0 =
      data.getD i 0 ^^^
        (let j := (i + 1) % 256
         box.getD
           ((box.getD j 0 + box.getD ((box.getD j 0 + j) % 256) 0) % 256)
           0) := by
  rw [decrypt_file_data_eq, decryptFrom_getD box data 0 i h, Nat.zero_add]
  rfl

/-- Witness for C1 at key box `0, …, 255`, audio stream `[5, 6]`, offset 0. -/
theorem claim_C1_witness :
    (decrypt_file_data (List.range 256) [5, 6]).getD 0 0 =
      ([5, 6] : List Nat).getD 0 0 ^^^
        (let j := (0 + 1) % 256
         (List.range 256).getD
           (((List.range 256).getD j 0 +
               (List.range 256).getD
                 (((List.range 256).getD j 0 + j) % 256) 0) % 256)
           0) :=
  claim_C1_keystream_per_absolute_offset (List.range 256) [5, 6] 0 (by decide)

/-- C2 counterexample: the claim "decrypting split into chunks of arbitrary
sizes yields byte-identical output to a single pass" is false for the
source's per-chunk loop: with the identity key box, the 2-byte payload
`[0, 0]` decrypted as two 1-byte chunks differs from the single-pass result,
because the loop index restarts at every chunk. -/
theorem claim_C2_counterexample :
    decryptChunks (List.range 256) [[0], [0]] ≠
      decryptChunks (List.range 256) [[0, 0]] := by
  decide

/-- C2 amended: splitting the audio payload into chunks yields the same
output as a single pass provided every chunk before the last has a length
that is a multiple of 256 (as the source's 0x8000-byte reads do); for
arbitrary chunk sizes the outputs differ. -/
theorem claim_C2_chunks_multiple_of_256 (box : List Nat)
    (chunks : List (List Nat))
    (h : ∀ c ∈ chunks.dropLast, c.length % 256 = 0) :
    decryptChunks box chunks = decryptChunks box [chunks.flatten] := by
  induction chunks with
  | nil => rfl
  | cons c cs ih =>
      cases cs with
      | nil => simp [decryptChunks]
      | cons c2 cs2 =>
          have hc : c.length % 256 = 0 := by
            apply h
            simp [List.dropLast_cons_of_ne_nil]
          have hrest : ∀ d ∈ (c2 :: cs2).dropLast, d.length % 256 = 0 := by
            intro d hd
            apply h
            simp [List.dropLast_cons_of_ne_nil, hd]
          have ihr := ih hrest
          simp only [decryptChunks, List.map_cons, List.map_nil,
            List.flatten_cons, List.flatten_nil, List.append_nil] at ihr ⊢
          rw [decryptFrom_append, ihr]
          congr 1
          apply decryptFrom_shift
          omega

set_option maxRecDepth 2048 in
/-- Witness for C2's amended theorem: a 256-byte first chunk followed by a
1-byte final chunk equals the single pass. -/
theorem claim_C2_witness :
    decryptChunks (List.range 256) [List.replicate 256 0, [1]] =
      decryptChunks (List.range 256)
        [([List.replicate 256 0, [1]] : List (List Nat)).flatten] :=
  claim_C2_chunks_multiple_of_256 (List.range 256)
    [List.replicate 256 0, [1]] (by decide)

/-- C3: for every non-empty master key byte sequence, the key-box
construction succeeds (every key index access is in bounds) and the
resulting 256-entry table is a permutation of `0, …, 255`. -/
theorem claim_C3_key_box_permutation (key_data : List Nat)
    (h : key_data ≠ []) :
    ∃ box, generate_key_box key_data = some box ∧
      box.Perm (List.range 256) :=
  generate_key_box_perm key_data h

/-- Witness for C3 at the one-byte master key `[1]`. -/
theorem claim_C3_witness :
    ∃ box, generate_key_box [1] = some box ∧ box.Perm (List.range 256) :=
  claim_C3_key_box_permutation [1] (by simp)

/-- C5: a stream of at least 8 bytes whose first 8 bytes differ from the
ASCII magic `CTENFDAM` fails the header check with the bad-magic error no
matter what follows, and a stream whose first 8 bytes equal the magic passes
the header check. -/
theorem claim_C5_magic_check :
    (∀ s : List Nat, 8 ≤ s.length → s.take 8 ≠ MAGIC →
        open_ncm_file s = .error .badMagic) ∧
      ∀ s : List Nat, s.take 8 = MAGIC → open_ncm_file s = .ok (s.drop 8) := by
  constructor
  · intro s h hne
    simp [open_ncm_file, Nat.not_lt.mpr h, hne]
  · intro s heq
    have hlen : 8 ≤ s.length := by
      have h8 : (s.take 8).length = 8 := by rw [heq]; rfl
      rw [List.length_take] at h8
      omega
    simp [open_ncm_file, Nat.not_lt.mpr hlen, heq]

/-- Witness for C5: an all-zero 8-byte header is rejected as bad magic and
the literal magic is accepted. -/
theorem claim_C5_witness :
    open_ncm_file (List.replicate 8 0) = .error .badMagic ∧
      open_ncm_file MAGIC = .ok (MAGIC.drop 8) :=
  ⟨claim_C5_magic_check.1 (List.replicate 8 0) (by decide) (by decide),
   claim_C5_magic_check.2 MAGIC (by decide)⟩

/-- C9: the audio stream transform is an involution: XOR-ing a byte twice
with the keystream byte for the same key box and the same absolute offset
returns the original byte, and consequently running `decrypt_file_data`
twice with the same key box returns the original payload. -/
theorem claim_C9_stream_cipher_involution (box : List Nat) :
    (∀ i b : Nat, (b ^^^ ksByte box i) ^^^ ksByte box i = b) ∧
      ∀ data : List Nat,
        decrypt_file_data box (decrypt_file_data box data) = data := by
  constructor
  · intro i b
    rw [Nat.xor_assoc, Nat.xor_self, Nat.xor_zero]
  · intro data
    rw [decrypt_file_data_eq, decrypt_file_data_eq]
    exact decryptFrom_involution box data 0

/-- C4 amended: whenever the metadata section length prefix is 0, the
metadata stage aborts with the modelled panic (the out-of-bounds slice
`meta_data[22..]` on an empty buffer), for every block primitive and base64
decoder and whatever bytes follow; the decode does not succeed with an
empty metadata record. -/
theorem claim_C4_zero_meta_length_panics (metaDec : List Nat → List Nat)
    (b64 : List Nat → Option (List Nat)) (rest : List Nat) :
    decrypt_meta_data metaDec b64 ([0, 0, 0, 0] ++ rest) = .error .panic := by
  simp [decrypt_meta_data, read_u32_le]

set_option maxRecDepth 100000 in
/-- C4 counterexample: on a concrete container with metadata length prefix 0
(and a key section that decrypts fine under the chosen block primitive), the
overall decode does not succeed with an empty metadata record: it aborts
with the modelled out-of-bounds panic. -/
theorem claim_C4_counterexample :
    decode (fun _ => some ()) (fun _ => List.replicate 16 7) (fun b => b)
      (fun b => some b) zeroMetaContainer = .error .panic := by
  rfl

/-- C6: every length-prefixed section read (key, metadata, image) fails with
the truncation error when fewer bytes remain in the stream than the declared
u32 length prefix requires, rather than returning a short buffer. -/
theorem claim_C6_truncated_sections :
    (∀ (coreDec : List Nat → List Nat) (s : List Nat) (key_length : Nat),
        s.length < key_length →
          decrypt_key_data coreDec s key_length = .error .truncated) ∧
      (∀ (metaDec : List Nat → List Nat) (b64 : List Nat → Option (List Nat))
          (s s1 : List Nat) (meta_length : Nat),
          read_u32_le s = some (meta_length, s1) →
          s1.length < meta_length →
            decrypt_meta_data metaDec b64 s = .error .truncated) ∧
      ∀ (s s1 s2 : List Nat) (crc image_size : Nat),
        read_u32_le s = some (crc, s1) →
        read_u32_le (s1.drop 5) = some (image_size, s2) →
        s2.length < image_size →
          decrypt_image_data s = .error .truncated := by
  refine ⟨?_, ?_, ?_⟩
  · intro coreDec s kl h
    simp [decrypt_key_data, h]
  · intro metaDec b64 s s1 ml h1 h2
    simp [decrypt_meta_data, h1, h2]
  · intro s s1 s2 crc isz h1 h2 h3
    simp [decrypt_image_data, h1, h2, h3]

/-- Witness for C6 at concrete truncated key, metadata and image sections. -/
theorem claim_C6_witness :
    decrypt_key_data (fun b => b) [] 1 = .error .truncated ∧
      decrypt_meta_data (fun b => b) (fun b => some b) [1, 0, 0, 0]
          = .error .truncated ∧
      decrypt_image_data [0, 0, 0, 0, 0, 0, 0, 0, 0, 1, 0, 0, 0]
          = .error .truncated :=
  ⟨claim_C6_truncated_sections.1 (fun b => b) [] 1 (by decide),
   claim_C6_truncated_sections.2.1 (fun b => b) (fun b => some b)
     [1, 0, 0, 0] [] 1 (by decide) (by decide),
   claim_C6_truncated_sections.2.2 [0, 0, 0, 0, 0, 0, 0, 0, 0, 1, 0, 0, 0]
     [0, 0, 0, 0, 0, 1, 0, 0, 0] [] 0 1 (by decide) (by decide) (by decide)⟩

/-- C7: the ECB decryption with PKCS7 unpadding fails with the
invalid-length error when the ciphertext length is not a multiple of the
16-byte block size; otherwise, writing `pt` for the concatenation of the
decrypted blocks, it fails with the invalid-padding error exactly when the
trailing bytes of `pt` do not form a valid PKCS7 pattern (`n` trailing
copies of the byte `n`, `1 ≤ n ≤ 16`), and returns the plaintext with the
`n` padding bytes removed when they do. -/
theorem claim_C7_ecb_pkcs7_contract (dec : List Nat → List Nat)
    (ct : List Nat) :
    (pkcs7_valid (decryptBlocks dec ct) = true ↔
        ∃ n, 1 ≤ n ∧ n ≤ 16 ∧ n ≤ (decryptBlocks dec ct).length ∧
          (decryptBlocks dec ct).drop ((decryptBlocks dec ct).length - n)
            = List.replicate n n) ∧
      (ct.length % 16 ≠ 0 → ecb_decrypt dec ct = .error .invalidLength) ∧
      (ct.length % 16 = 0 → pkcs7_valid (decryptBlocks dec ct) = false →
        ecb_decrypt dec ct = .error .invalidPadding) ∧
      (ct.length % 16 = 0 → pkcs7_valid (decryptBlocks dec ct) = true →
        ∃ n, 1 ≤ n ∧ n ≤ 16 ∧
          ecb_decrypt dec ct =
            .ok ((decryptBlocks dec ct).take
              ((decryptBlocks dec ct).length - n)) ∧
          (decryptBlocks dec ct).drop ((decryptBlocks dec ct).length - n)
            = List.replicate n n) := by
  refine ⟨pkcs7_valid_iff _, ?_, ?_, ?_⟩
  · intro h
    simp [ecb_decrypt, h]
  · intro h hval
    have hunp := (pkcs7_unpad_cases (decryptBlocks dec ct)).2 hval
    simp [ecb_decrypt, h, hunp]
  · intro h hval
    obtain ⟨n, h1, h16, hunp, hdrop⟩ :=
      (pkcs7_unpad_cases (decryptBlocks dec ct)).1 hval
    refine ⟨n, h1, h16, ?_, hdrop⟩
    simp [ecb_decrypt, h, hunp]

/-- Witness for C7: a 1-byte ciphertext is rejected as invalid length, a
16-byte all-zero plaintext is rejected as invalid padding, and a 16-byte
plaintext of all `16`s unpads to the empty plaintext. -/
theorem claim_C7_witness :
    ecb_decrypt (fun b => b) [1] = .error .invalidLength ∧
      ecb_decrypt (fun b => b) (List.replicate 16 0)
          = .error .invalidPadding ∧
      ∃ n, 1 ≤ n ∧ n ≤ 16 ∧
        ecb_decrypt (fun b => b) (List.replicate 16 16) =
          .ok ((decryptBlocks (fun b => b) (List.replicate 16 16)).take
            ((decryptBlocks (fun b => b) (List.replicate 16 16)).length - n)) ∧
        (decryptBlocks (fun b => b) (List.replicate 16 16)).drop
            ((decryptBlocks (fun b => b) (List.replicate 16 16)).length - n)
          = List.replicate n n :=
  ⟨(claim_C7_ecb_pkcs7_contract (fun b => b) [1]).2.1 (by decide),
   (claim_C7_ecb_pkcs7_contract (fun b => b) (List.replicate 16 0)).2.2.1
     (by decide) (by decide),
   (claim_C7_ecb_pkcs7_contract (fun b => b) (List.replicate 16 16)).2.2.2
     (by decide) (by decide)⟩

/-- C8: the decode pipeline is deterministic: with the compiled-in keys
fixed (here: any fixed choice of the block primitives, base64 decoder and
metadata parser), identical input container bytes yield identical metadata,
image and audio outputs. -/
theorem claim_C8_decode_deterministic {M : Type}
    (parseMeta : List Nat → Option M) (coreDec metaDec : List Nat → List Nat)
    (b64 : List Nat → Option (List Nat)) (s1 s2 : List Nat) (h : s1 = s2) :
    decode parseMeta coreDec metaDec b64 s1
      = decode parseMeta coreDec metaDec b64 s2 := by
  rw [h]

/-- Witness for C8 on two identical empty streams. -/
theorem claim_C8_witness :
    decode (fun _ => some 0) (fun b => b) (fun b => b) (fun b => some b) []
      = decode (fun _ => some 0) (fun b => b) (fun b => b) (fun b => some b)
          [] :=
  claim_C8_decode_deterministic (fun _ => some 0) (fun b => b) (fun b => b)
    (fun b => some b) [] [] rfl

set_option maxRecDepth 8192 in
/-- C10: when the AES-decrypted, PKCS7-unpadded key plaintext `pt` is at
least 18 bytes, the 17-byte prefix slice and every `key_data[key_offset]`
access during key-box construction are in bounds, so the key-recovery stage
succeeds without panicking; when `pt` has 17 or fewer bytes the stage is not
rejected with a tagged error but hits an out-of-bounds access (the slice
`decrypted_data[17..]` for fewer than 17 bytes, or the key index access on
the empty master key when `pt` has exactly 17 bytes). -/
theorem claim_C10_key_stage_bounds (coreDec : List Nat → List Nat)
    (s : List Nat) (key_length : Nat) (pt : List Nat)
    (hlen : key_length ≤ s.length)
    (hdec : ecb_decrypt coreDec ((s.take key_length).map (fun b => b ^^^ 0x64))
      = .ok pt) :
    (18 ≤ pt.length →
        decrypt_key_data coreDec s key_length
            = .ok (pt.drop 17, s.drop key_length) ∧
          (generate_key_box (pt.drop 17)).isSome = true) ∧
      (pt.length ≤ 17 →
        decrypt_key_data coreDec s key_length = .error .panic ∨
          (decrypt_key_data coreDec s key_length
              = .ok ([], s.drop key_length) ∧
            generate_key_box [] = none)) := by
  have hnotlt : ¬ s.length < key_length := Nat.not_lt.mpr hlen
  rw [List.map_take] at hdec
  constructor
  · intro h18
    have hnot17 : ¬ pt.length < 17 := by omega
    constructor
    · simp [decrypt_key_data, hnotlt, hdec, hnot17]
    · have hne : pt.drop 17 ≠ [] := by
        intro hnil
        have := congrArg List.length hnil
        rw [List.length_drop] at this
        simp at this
        omega
      obtain ⟨box, hb, _⟩ := generate_key_box_perm (pt.drop 17) hne
      rw [hb]
      rfl
  · intro h17
    by_cases hlt : pt.length < 17
    · left
      simp [decrypt_key_data, hnotlt, hdec, hlt]
    · right
      have hdropnil : pt.drop 17 = [] := List.drop_eq_nil_of_le (by omega)
      constructor
      · simp [decrypt_key_data, hnotlt, hdec, hlt, hdropnil]
      · decide

/-- Witness for C10: with a block primitive whose single decrypted block is
sixteen `16`s, the unpadded plaintext is empty (≤ 17 bytes), and the key
stage aborts with the modelled panic instead of a tagged error. -/
theorem claim_C10_witness :
    decrypt_key_data (fun _ => List.replicate 16 16) (List.replicate 16 0) 16
        = .error .panic ∨
      (decrypt_key_data (fun _ => List.replicate 16 16)
            (List.replicate 16 0) 16
          = .ok ([], (List.replicate 16 0).drop 16) ∧
        generate_key_box [] = none) :=
  (claim_C10_key_stage_bounds (fun _ => List.replicate 16 16)
      (List.replicate 16 0) 16 [] (by decide) (by rfl)).2 (by decide)
